import Mathlib

/-!
Shallow embedding of the Huffman compression engine of this repository
(`src/FileCompression.py`, with the byte-oriented duplicate in
`src/MixAndEntropy.py`).

Symbols (characters in `FileCompression.py`, bytes in `MixAndEntropy.py`)
are modelled as `Nat`; bit-strings of `"0"`/`"1"` characters are modelled
as `List Bool` (`false` = `"0"`, `true` = `"1"`); Python `dict`s are
modelled as association lists in insertion order, with the
assignment-overwrites (last-binding-wins) lookup `dlookup`; fallible
operations (`KeyError`, `AttributeError` on `None`) return `Option`.

The tree construction goes through a faithful model of CPython's `heapq`
module (`heapify`, `heappush`, `heappop` with `_siftup`/`_siftdown`),
because `Node.__lt__` compares frequencies only, so the heap's internal
element order decides how frequency ties are broken.
-/

/-- The `Node` class: `build_tree` only ever constructs nodes that are
either leaves (`character` set, no children) or internal nodes
(`character` is `None`, both children present), so `Node` is embedded as
that tagged union.  `character`/`frequency` mirror the Python fields. -/
inductive Node where
  | leaf (character : Nat) (frequency : Nat)
  | internal (frequency : Nat) (left : Node) (right : Node)
deriving Repr, DecidableEq

/-- The `frequency` field of a node. -/
def Node.frequency : Node → Nat
  | .leaf _ f => f
  | .internal f _ _ => f

/-- `Node.__lt__`: nodes compare by frequency only. -/
def nlt (a b : Node) : Bool := a.frequency < b.frequency

/-- Default node used only for out-of-range list reads, which never occur
in the modelled call paths. -/
def dNode : Node := Node.leaf 0 0

/-- One step of `frequency_map[ch] += 1` on a `defaultdict(int)` modelled
as an insertion-ordered association list. -/
def bump : List (Nat × Nat) → Nat → List (Nat × Nat)
  | [], c => [(c, 1)]
  | (k, v) :: rest, c => if k = c then (k, v + 1) :: rest else (k, v) :: bump rest c

/-- The frequency-counting loop of `build_tree`: byte value to occurrence
count, keys in first-occurrence order (CPython dict iteration order). -/
def freqMap (b : List Nat) : List (Nat × Nat) := b.foldl bump []

/-- CPython `heapq._siftdown` loop, with explicit fuel (`fuel = pos`
suffices since `pos` strictly decreases). -/
def siftdownLoop (newitem : Node) (startpos : Nat) : Nat → Nat → List Node → List Node
  | 0, pos, heap => heap.set pos newitem
  | fuel + 1, pos, heap =>
    if startpos < pos then
      let parentpos := (pos - 1) / 2
      let parent := heap.getD parentpos dNode
      if nlt newitem parent then
        siftdownLoop newitem startpos fuel parentpos (heap.set pos parent)
      else heap.set pos newitem
    else heap.set pos newitem

/-- CPython `heapq._siftdown`. -/
def siftdown (heap : List Node) (startpos pos : Nat) : List Node :=
  siftdownLoop (heap.getD pos dNode) startpos pos pos heap

/-- CPython `heapq._siftup` loop, with explicit fuel (`fuel = endpos`
suffices since `pos` strictly increases and stays below `endpos`). -/
def siftupLoop (newitem : Node) (endpos startpos : Nat) : Nat → Nat → List Node → List Node
  | 0, pos, heap => siftdown (heap.set pos newitem) startpos pos
  | fuel + 1, pos, heap =>
    let childpos := 2 * pos + 1
    if childpos < endpos then
      let rightpos := childpos + 1
      let cp :=
        if rightpos < endpos && !(nlt (heap.getD childpos dNode) (heap.getD rightpos dNode))
        then rightpos else childpos
      siftupLoop newitem endpos startpos fuel cp (heap.set pos (heap.getD cp dNode))
    else siftdown (heap.set pos newitem) startpos pos

/-- CPython `heapq._siftup`. -/
def siftup (heap : List Node) (pos : Nat) : List Node :=
  siftupLoop (heap.getD pos dNode) heap.length pos heap.length pos heap

/-- Loop of CPython `heapq.heapify`: `for i in reversed(range(n//2)): _siftup(x, i)`. -/
def heapifyLoop : Nat → List Node → List Node
  | 0, heap => heap
  | i + 1, heap => heapifyLoop i (siftup heap i)

/-- CPython `heapq.heapify`. -/
def heapify (x : List Node) : List Node := heapifyLoop (x.length / 2) x

/-- CPython `heapq.heappush`: append, then sift down from the new slot. -/
def heappush (heap : List Node) (item : Node) : List Node :=
  siftdown (heap ++ [item]) 0 heap.length

/-- CPython `heapq.heappop`: pop the last element; if the heap is still
non-empty, return the old root, move the popped element to slot 0 and
sift up.  `none` models the `IndexError` on an empty heap (never reached
from `build_tree`, which pops only while the heap has more than one
element). -/
def heappop (heap : List Node) : Option (Node × List Node) :=
  match heap.getLast? with
  | none => none
  | some lastelt =>
    match heap.dropLast with
    | [] => some (lastelt, [])
    | r0 :: rtail => some (r0, siftup ((r0 :: rtail).set 0 lastelt) 0)

/-- The `while len(heap) > 1` merge loop of `HuffmanTree.build_tree`.
Each iteration shrinks the heap by one, so `fuel = heap.length` suffices;
the `none` fallbacks are unreachable because pops happen only when the
heap has more than one element. -/
def buildLoop : Nat → List Node → List Node
  | 0, heap => heap
  | fuel + 1, heap =>
    if 1 < heap.length then
      match heappop heap with
      | none => heap
      | some (left, h1) =>
        match heappop h1 with
        | none => heap
        | some (right, h2) =>
          buildLoop fuel (heappush h2 (Node.internal (left.frequency + right.frequency) left right))
    else heap

/-- `HuffmanTree.build_tree`: count frequencies, heapify one leaf per
distinct symbol, merge the two minima until one node remains, and return
`heap[0] if heap else None`. -/
def build_tree (b : List Nat) : Option Node :=
  let heap := heapify ((freqMap b).map fun cf => Node.leaf cf.1 cf.2)
  (buildLoop heap.length heap).head?

/-- `HuffmanTree.generate_codes`: record the accumulated bit-string at
every leaf, appending `"0"` on a left step and `"1"` on a right step.
Successive `self.codes[...] = ...` dict writes are modelled by the
traversal-ordered association list (keys are distinct for built trees). -/
def generate_codes : Node → List Bool → List (Nat × List Bool)
  | .leaf c _, cur => [(c, cur)]
  | .internal _ l r, cur => generate_codes l (cur ++ [false]) ++ generate_codes r (cur ++ [true])

/-- Python dict lookup on the association list produced by
`generate_codes`: the last binding of a key wins (assignment overwrites). -/
def dlookup (codes : List (Nat × List Bool)) (c : Nat) : Option (List Bool) :=
  match codes with
  | [] => none
  | (k, v) :: rest =>
    match dlookup rest c with
    | some w => some w
    | none => if k = c then some v else none

/-- `HuffmanTree.__init__` on a buffer: `root = build_tree(text) if text
else None` (the guard is Python truthiness of the buffer). -/
def hroot (b : List Nat) : Option Node := if b = [] then none else build_tree b

/-- The `self.codes` table after `HuffmanTree.__init__`: generated from
the root when one exists, otherwise left empty. -/
def hcodes (b : List Nat) : List (Nat × List Bool) :=
  match hroot b with
  | some t => generate_codes t []
  | none => []

/-- The method `HuffmanTree.encode`, which joins `self.codes[ch]` over
the symbols `ch` of the buffer into one bitstream;
`none` models the `KeyError` on a symbol without a code. -/
def encode (codes : List (Nat × List Bool)) : List Nat → Option (List Bool)
  | [] => some []
  | ch :: rest =>
    match dlookup codes ch, encode codes rest with
    | some p, some bits => some (p ++ bits)
    | _, _ => none

/-- `int(byte_string, 2)`: most-significant bit first. -/
def bitsToNat (l : List Bool) : Nat :=
  l.foldl (fun a b => 2 * a + (if b then 1 else 0)) 0

/-- `f-string` formatting `f"{byte:08b}"` of a byte value `n < 256`
(`w = 8` in every call): fixed-width binary, most-significant bit first. -/
def natToBits : Nat → Nat → List Bool
  | 0, _ => []
  | w + 1, n => natToBits w (n / 2) ++ [decide (n % 2 = 1)]

/-- The byte-grouping loop of `to_binary_string`: take eight bits at a
time and convert each group with `int(_, 2)`.  The final short-group
branch mirrors Python's shorter last slice and is unreachable after
padding. -/
def packBits : List Bool → List Nat
  | b0 :: b1 :: b2 :: b3 :: b4 :: b5 :: b6 :: b7 :: rest =>
    bitsToNat [b0, b1, b2, b3, b4, b5, b6, b7] :: packBits rest
  | [] => []
  | l => [bitsToNat l]

/-- `to_binary_string`: append `8 - len % 8` zero bits, then group the
padded bitstream into bytes; returns the bytes and the padding count. -/
def to_binary_string (encoded_text : List Bool) : List Nat × Nat :=
  let padding := 8 - encoded_text.length % 8
  let padded_text := encoded_text ++ List.replicate padding false
  (packBits padded_text, padding)

/-- Python slicing `s[:-padding]` as used by `decompress_file`: for a
positive count it drops the last `padding` items, and for `padding = 0`
it would yield the empty string (`s[:-0]` is `s[:0]`). -/
def pyStripLast (s : List Bool) (padding : Nat) : List Bool :=
  if padding = 0 then [] else s.take (s.length - padding)

/-- The walk of `decode_huffman` from a current node: each bit moves to a
child (`0` left, `1` right); arriving at a leaf emits its symbol and
resets to the root.  `none` models the `AttributeError` raised when the
walk steps from a leaf to its `None` child. -/
def decodeFrom (root : Node) : Node → List Bool → Option (List Nat)
  | _, [] => some []
  | .leaf _ _, _ :: _ => none
  | .internal _ l r, bit :: rest =>
    match (if bit then r else l) with
    | .leaf c _ => (decodeFrom root root rest).map fun ds => c :: ds
    | .internal f2 l2 r2 => decodeFrom root (.internal f2 l2 r2) rest

/-- `decode_huffman` as called with a `HuffmanTree`: with a `None` root
the loop body would dereference `None` on the first bit (and return `""`
on an empty bit string). -/
def decode_huffman (binary_string : List Bool) (root : Option Node) : Option (List Nat) :=
  match root with
  | some t => decodeFrom t t binary_string
  | none => if binary_string = [] then some [] else none

/-- The pure core of `compress_file`: build the tree and its code table
from the buffer, encode, pack, and lay the artifact out as the padding
count byte followed by the packed bytes. -/
def compressArtifact (b : List Nat) : Option (List Nat) :=
  match encode (hcodes b) b with
  | none => none
  | some bits =>
    let packed := to_binary_string bits
    some (packed.2 :: packed.1)

/-- The pure core of `decompress_file`: split off the padding count,
unpack every byte to eight bits, strip the padding with `[:-padding]`,
and run the tree walk. -/
def decompressArtifact (artifact : List Nat) (root : Option Node) : Option (List Nat) :=
  match artifact with
  | [] => none
  | padding :: bytes =>
    let binary_string := (bytes.map (natToBits 8)).flatten
    decode_huffman (pyStripLast binary_string padding) root

/-- Compression followed by decompression against the same in-memory tree
(the tree is not part of the artifact). -/
def roundtrip (b : List Nat) : Option (List Nat) :=
  match compressArtifact b with
  | none => none
  | some artifact => decompressArtifact artifact (hroot b)

/-- Structural well-formedness of a built node: every internal node
carries the sum of its children's frequencies. -/
def wf : Node → Bool
  | .leaf _ _ => true
  | .internal f l r => (decide (f = l.frequency + r.frequency)) && wf l && wf r

/-- The leaf symbols of a tree, left to right. -/
def leafList : Node → List Nat
  | .leaf c _ => [c]
  | .internal _ l r => leafList l ++ leafList r

/-- Modelled from the spec, section 4.2: extraction of the node of lowest
frequency with ties broken by the stable secondary key "original
insertion order into the candidate set" (the earliest-inserted node among
those of minimal frequency is taken).  This is the tie-break policy the
spec attributes to TreeBuilder; the code itself delegates tie order to
`heapq`'s array layout. -/
def extractMinStable : List Node → Option (Node × List Node)
  | [] => none
  | x :: rest =>
    match extractMinStable rest with
    | none => some (x, [])
    | some (m, rest2) =>
      if x.frequency ≤ m.frequency then some (x, rest) else some (m, x :: rest2)

/-- Modelled from the spec, section 4.2: the merge loop with the stable
insertion-order tie-break; freshly merged nodes enter the candidate set
last, i.e. with the newest insertion key. -/
def specLoop : Nat → List Node → List Node
  | 0, cand => cand
  | fuel + 1, cand =>
    if 1 < cand.length then
      match extractMinStable cand with
      | none => cand
      | some (l, c1) =>
        match extractMinStable c1 with
        | none => cand
        | some (r, c2) =>
          specLoop fuel (c2 ++ [Node.internal (l.frequency + r.frequency) l r])
    else cand

/-- Modelled from the spec, section 4.2: TreeBuilder with the spec's
stable insertion-order tie-break. -/
def spec_build_tree (b : List Nat) : Option Node :=
  let cand := (freqMap b).map fun cf => Node.leaf cf.1 cf.2
  (specLoop cand.length cand).head?

/-- The code table the spec's tie-break policy would produce. -/
def spec_codes (b : List Nat) : List (Nat × List Bool) :=
  match spec_build_tree b with
  | some t => generate_codes t []
  | none => []


/-! Multiset bookkeeping for the heap operations.  The correctness
arguments below never need the heap ordering invariant, only that every
`heapq` operation permutes the stored nodes (plus or minus the pushed or
popped one). -/

/-- Writing an in-range index exchanges exactly that element of the
underlying multiset. -/
theorem setExchange {α : Type} (d : α) :
    ∀ (l : List α) (i : Nat) (v : α), i < l.length →
      l.getD i d ::ₘ (↑(l.set i v) : Multiset α) = v ::ₘ (↑l : Multiset α) := by
  intro l
  induction l with
  | nil => intro i v h; simp at h
  | cons a t ih =>
    intro i v h
    cases i with
    | zero =>
      simp only [List.set, List.getD_cons_zero]
      rw [← Multiset.cons_coe, ← Multiset.cons_coe, Multiset.cons_swap]
    | succ n =>
      simp only [List.set, List.getD_cons_succ]
      rw [← Multiset.cons_coe, ← Multiset.cons_coe, Multiset.cons_swap,
        ih n v (by simpa using h), Multiset.cons_swap]

/-- Reading beside a write is unaffected by it. -/
theorem getD_set_ne {α : Type} (d : α) (l : List α) {i j : Nat} (hij : i ≠ j) (v : α) :
    (l.set i v).getD j d = l.getD j d := by
  simp [List.getD, List.getElem?_set_ne hij]

theorem siftdownLoop_length (newitem : Node) (startpos : Nat) :
    ∀ (fuel pos : Nat) (heap : List Node),
      (siftdownLoop newitem startpos fuel pos heap).length = heap.length := by
  intro fuel
  induction fuel with
  | zero => intro pos heap; simp [siftdownLoop]
  | succ n ih =>
    intro pos heap
    simp only [siftdownLoop]
    split
    · split
      · rw [ih]; simp
      · simp
    · simp

theorem siftdown_length (heap : List Node) (startpos pos : Nat) :
    (siftdown heap startpos pos).length = heap.length :=
  siftdownLoop_length ..

theorem siftdownLoop_ms (newitem : Node) (startpos : Nat) :
    ∀ (fuel pos : Nat) (heap : List Node), pos < heap.length →
      heap.getD pos dNode ::ₘ (↑(siftdownLoop newitem startpos fuel pos heap) : Multiset Node)
        = newitem ::ₘ (↑heap : Multiset Node) := by
  intro fuel
  induction fuel with
  | zero =>
    intro pos heap h
    simpa [siftdownLoop] using setExchange dNode heap pos newitem h
  | succ n ih =>
    intro pos heap h
    simp only [siftdownLoop]
    by_cases h1 : startpos < pos
    · simp only [if_pos h1]
      by_cases h2 : nlt newitem (heap.getD ((pos - 1) / 2) dNode)
      · simp only [if_pos h2]
        have hne : pos ≠ (pos - 1) / 2 := by omega
        have hlt : (pos - 1) / 2 < (heap.set pos (heap.getD ((pos - 1) / 2) dNode)).length := by
          rw [List.length_set]; omega
        have hih := ih ((pos - 1) / 2) (heap.set pos (heap.getD ((pos - 1) / 2) dNode)) hlt
        rw [getD_set_ne dNode heap hne] at hih
        have hex := setExchange dNode heap pos (heap.getD ((pos - 1) / 2) dNode) h
        have key : heap.getD ((pos - 1) / 2) dNode ::ₘ
            (heap.getD pos dNode ::ₘ
              (↑(siftdownLoop newitem startpos n ((pos - 1) / 2)
                  (heap.set pos (heap.getD ((pos - 1) / 2) dNode))) : Multiset Node))
            = heap.getD ((pos - 1) / 2) dNode ::ₘ (newitem ::ₘ (↑heap : Multiset Node)) := by
          rw [Multiset.cons_swap, hih, Multiset.cons_swap, hex, Multiset.cons_swap]
        exact (Multiset.cons_inj_right _).mp key
      · simp only [if_neg h2]
        exact setExchange dNode heap pos newitem h
    · simp only [if_neg h1]
      exact setExchange dNode heap pos newitem h

theorem siftdown_ms (heap : List Node) (startpos pos : Nat) (h : pos < heap.length) :
    (↑(siftdown heap startpos pos) : Multiset Node) = (↑heap : Multiset Node) := by
  have := siftdownLoop_ms (heap.getD pos dNode) startpos pos pos heap h
  exact (Multiset.cons_inj_right _).mp this

theorem siftupLoop_length (newitem : Node) (endpos startpos : Nat) :
    ∀ (fuel pos : Nat) (heap : List Node),
      (siftupLoop newitem endpos startpos fuel pos heap).length = heap.length := by
  intro fuel
  induction fuel with
  | zero => intro pos heap; simp [siftupLoop, siftdown_length]
  | succ n ih =>
    intro pos heap
    simp only [siftupLoop]
    split
    · rw [ih]; simp
    · simp [siftdown_length]

theorem siftupLoop_ms (newitem : Node) (endpos startpos : Nat) :
    ∀ (fuel pos : Nat) (heap : List Node), pos < heap.length → endpos ≤ heap.length →
      heap.getD pos dNode ::ₘ (↑(siftupLoop newitem endpos startpos fuel pos heap) : Multiset Node)
        = newitem ::ₘ (↑heap : Multiset Node) := by
  intro fuel
  induction fuel with
  | zero =>
    intro pos heap h hend
    simp only [siftupLoop]
    rw [siftdown_ms _ startpos pos (by rw [List.length_set]; exact h)]
    exact setExchange dNode heap pos newitem h
  | succ n ih =>
    intro pos heap h hend
    simp only [siftupLoop]
    split
    · rename_i hchild
      set cp := if 2 * pos + 1 + 1 < endpos
          && !(nlt (heap.getD (2 * pos + 1) dNode) (heap.getD (2 * pos + 1 + 1) dNode))
        then 2 * pos + 1 + 1 else 2 * pos + 1 with hcp
      have hcplt : cp < endpos := by
        rw [hcp]; split
        · rename_i hcond
          have := of_decide_eq_true (Bool.and_elim_left hcond)
          exact this
        · exact hchild
      have hcpne : pos ≠ cp := by rw [hcp]; split <;> omega
      have hlt : cp < (heap.set pos (heap.getD cp dNode)).length := by
        rw [List.length_set]; omega
      have hih := ih cp (heap.set pos (heap.getD cp dNode)) hlt
        (by rw [List.length_set]; exact hend)
      rw [getD_set_ne dNode heap hcpne] at hih
      have hex := setExchange dNode heap pos (heap.getD cp dNode) h
      have key : heap.getD cp dNode ::ₘ
          (heap.getD pos dNode ::ₘ
            (↑(siftupLoop newitem endpos startpos n cp
                (heap.set pos (heap.getD cp dNode))) : Multiset Node))
          = heap.getD cp dNode ::ₘ (newitem ::ₘ (↑heap : Multiset Node)) := by
        rw [Multiset.cons_swap, hih, Multiset.cons_swap, hex, Multiset.cons_swap]
      exact (Multiset.cons_inj_right _).mp key
    · rw [siftdown_ms _ startpos pos (by rw [List.length_set]; exact h)]
      exact setExchange dNode heap pos newitem h

theorem siftup_length (heap : List Node) (pos : Nat) :
    (siftup heap pos).length = heap.length :=
  siftupLoop_length ..

theorem siftup_ms (heap : List Node) (pos : Nat) (h : pos < heap.length) :
    (↑(siftup heap pos) : Multiset Node) = (↑heap : Multiset Node) := by
  have := siftupLoop_ms (heap.getD pos dNode) heap.length pos heap.length pos heap h le_rfl
  exact (Multiset.cons_inj_right _).mp this

theorem heapifyLoop_ms :
    ∀ (i : Nat) (heap : List Node), i ≤ heap.length →
      (↑(heapifyLoop i heap) : Multiset Node) = (↑heap : Multiset Node) := by
  intro i
  induction i with
  | zero => intro heap h; simp [heapifyLoop]
  | succ n ih =>
    intro heap h
    simp only [heapifyLoop]
    rw [ih (siftup heap n) (by rw [siftup_length]; omega), siftup_ms heap n (by omega)]

theorem heapify_ms (x : List Node) : (↑(heapify x) : Multiset Node) = (↑x : Multiset Node) :=
  heapifyLoop_ms (x.length / 2) x (Nat.div_le_self ..)

theorem heapify_length (x : List Node) : (heapify x).length = x.length := by
  have := congrArg Multiset.card (heapify_ms x)
  simpa [Multiset.coe_card] using this

theorem heappush_ms (heap : List Node) (item : Node) :
    (↑(heappush heap item) : Multiset Node) = item ::ₘ (↑heap : Multiset Node) := by
  unfold heappush
  rw [siftdown_ms _ 0 heap.length (by simp)]
  rw [Multiset.cons_coe]
  exact Multiset.coe_eq_coe.mpr (List.perm_append_singleton item heap)

theorem heappush_length (heap : List Node) (item : Node) :
    (heappush heap item).length = heap.length + 1 := by
  have := congrArg Multiset.card (heappush_ms heap item)
  simpa [Multiset.coe_card] using this

theorem heappop_ms (heap : List Node) (hne : heap ≠ []) :
    ∃ a rest, heappop heap = some (a, rest) ∧
      a ::ₘ (↑rest : Multiset Node) = (↑heap : Multiset Node) ∧
      rest.length + 1 = heap.length := by
  unfold heappop
  rw [List.getLast?_eq_getLast heap hne]
  have hsplit : heap.dropLast ++ [heap.getLast hne] = heap := List.dropLast_append_getLast hne
  have hms : (↑(heap.dropLast ++ [heap.getLast hne]) : Multiset Node) = (↑heap : Multiset Node) :=
    congrArg _ hsplit
  have hlen : heap.dropLast.length + 1 = heap.length := by
    have := congrArg List.length hsplit
    simpa using this
  cases hdl : heap.dropLast with
  | nil =>
    refine ⟨heap.getLast hne, [], rfl, ?_, ?_⟩
    · rw [← hms, hdl]; rfl
    · rw [← hlen, hdl]
  | cons r0 rtail =>
    refine ⟨r0, siftup ((r0 :: rtail).set 0 (heap.getLast hne)) 0, rfl, ?_, ?_⟩
    · rw [siftup_ms _ 0 (by simp)]
      show r0 ::ₘ (↑(heap.getLast hne :: rtail) : Multiset Node) = (↑heap : Multiset Node)
      rw [← hms, hdl]
      rw [← Multiset.cons_coe, Multiset.cons_swap, Multiset.cons_coe, Multiset.cons_coe]
      exact Multiset.coe_eq_coe.mpr (List.perm_append_singleton _ _).symm
    · rw [siftup_length]
      rw [← hlen, hdl]
      simp

/-! Invariants of the merge loop. -/

theorem msum_eq {M : Type} [AddCommMonoid M] (m : Node → M) {h1 h2 : List Node}
    (h : (↑h1 : Multiset Node) = (↑h2 : Multiset Node)) :
    (h1.map m).sum = (h2.map m).sum :=
  ((Multiset.coe_eq_coe.mp h).map m).sum_eq

theorem msum_cons_eq {M : Type} [AddCommMonoid M] (m : Node → M) {x : Node}
    {rest h : List Node} (hh : x ::ₘ (↑rest : Multiset Node) = (↑h : Multiset Node)) :
    m x + (rest.map m).sum = (h.map m).sum := by
  have : (↑(x :: rest) : Multiset Node) = (↑h : Multiset Node) := by
    rw [← Multiset.cons_coe]; exact hh
  have := msum_eq m this
  simpa using this

theorem mem_of_ms {α : Type} {x : α} {h1 h2 : List α}
    (h : (↑h1 : Multiset α) = (↑h2 : Multiset α)) : x ∈ h1 ↔ x ∈ h2 := by
  rw [← Multiset.mem_coe, ← Multiset.mem_coe, h]

theorem buildLoop_le_one (fuel : Nat) (heap : List Node) (h : heap.length ≤ 1) :
    buildLoop fuel heap = heap := by
  cases fuel with
  | zero => rfl
  | succ n => simp only [buildLoop]; rw [if_neg (by omega)]

theorem buildLoop_sum {M : Type} [AddCommMonoid M] (m : Node → M)
    (hm : ∀ l r : Node, m (Node.internal (l.frequency + r.frequency) l r) = m l + m r) :
    ∀ (fuel : Nat) (heap : List Node),
      ((buildLoop fuel heap).map m).sum = (heap.map m).sum := by
  intro fuel
  induction fuel with
  | zero => intro heap; rfl
  | succ n ih =>
    intro heap
    simp only [buildLoop]
    by_cases hlen : 1 < heap.length
    · rw [if_pos hlen]
      have hne : heap ≠ [] := by
        intro hnil; rw [hnil] at hlen; simp at hlen
      obtain ⟨a, h1, hpop1, hms1, hlen1⟩ := heappop_ms heap hne
      have hne1 : h1 ≠ [] := by
        intro hnil; rw [hnil] at hlen1; simp at hlen1; omega
      obtain ⟨b, h2, hpop2, hms2, hlen2⟩ := heappop_ms h1 hne1
      simp only [hpop1, hpop2]
      rw [ih]
      have hps := heappush_ms h2 (Node.internal (a.frequency + b.frequency) a b)
      rw [msum_eq m hps]
      have e1 : m b + (h2.map m).sum = (h1.map m).sum := msum_cons_eq m hms2
      have e2 : m a + (h1.map m).sum = (heap.map m).sum := msum_cons_eq m hms1
      rw [← e2, ← e1]
      simp only [List.map_cons, List.sum_cons, hm, add_assoc]
    · rw [if_neg hlen]

theorem buildLoop_all (P : Node → Prop)
    (hP : ∀ l r : Node, P l → P r → P (Node.internal (l.frequency + r.frequency) l r)) :
    ∀ (fuel : Nat) (heap : List Node), (∀ x ∈ heap, P x) →
      ∀ x ∈ buildLoop fuel heap, P x := by
  intro fuel
  induction fuel with
  | zero => intro heap h; exact h
  | succ n ih =>
    intro heap hall
    simp only [buildLoop]
    by_cases hlen : 1 < heap.length
    · rw [if_pos hlen]
      have hne : heap ≠ [] := by
        intro hnil; rw [hnil] at hlen; simp at hlen
      obtain ⟨a, h1, hpop1, hms1, hlen1⟩ := heappop_ms heap hne
      have hne1 : h1 ≠ [] := by
        intro hnil; rw [hnil] at hlen1; simp at hlen1; omega
      obtain ⟨b, h2, hpop2, hms2, hlen2⟩ := heappop_ms h1 hne1
      simp only [hpop1, hpop2]
      have ha : P a := hall a (by
        rw [← Multiset.mem_coe, ← hms1]; exact Multiset.mem_cons_self a _)
      have hb : P b := hall b (by
        rw [← Multiset.mem_coe, ← hms1]
        exact Multiset.mem_cons_of_mem (by rw [← hms2]; exact Multiset.mem_cons_self b _))
      have hall2 : ∀ x ∈ h2, P x := by
        intro x hx
        refine hall x ?_
        rw [← Multiset.mem_coe, ← hms1]
        refine Multiset.mem_cons_of_mem ?_
        rw [← hms2]
        exact Multiset.mem_cons_of_mem (Multiset.mem_coe.mpr hx)
      apply ih
      intro x hx
      have hxm : x ∈ (↑(heappush h2 (Node.internal (a.frequency + b.frequency) a b)) :
          Multiset Node) := Multiset.mem_coe.mpr hx
      rw [heappush_ms] at hxm
      rcases Multiset.mem_cons.mp hxm with h | h
      · exact h ▸ hP a b ha hb
      · exact hall2 x (Multiset.mem_coe.mp h)
    · rw [if_neg hlen]; exact hall

theorem buildLoop_length_one :
    ∀ (fuel : Nat) (heap : List Node), 1 ≤ heap.length → heap.length ≤ fuel + 1 →
      (buildLoop fuel heap).length = 1 := by
  intro fuel
  induction fuel with
  | zero => intro heap h1 h2; simpa [buildLoop] using by omega
  | succ n ih =>
    intro heap h1 h2
    simp only [buildLoop]
    by_cases hlen : 1 < heap.length
    · rw [if_pos hlen]
      have hne : heap ≠ [] := by
        intro hnil; rw [hnil] at hlen; simp at hlen
      obtain ⟨a, h1x, hpop1, hms1, hlen1⟩ := heappop_ms heap hne
      have hne1 : h1x ≠ [] := by
        intro hnil; rw [hnil] at hlen1; simp at hlen1; omega
      obtain ⟨b, h2x, hpop2, hms2, hlen2⟩ := heappop_ms h1x hne1
      simp only [hpop1, hpop2]
      apply ih
      · rw [heappush_length]; omega
      · rw [heappush_length]; omega
    · rw [if_neg hlen]; omega

theorem heappush_nil (x : Node) : heappush [] x = [x] := rfl

theorem buildLoop_internal :
    ∀ (fuel : Nat) (heap : List Node), 2 ≤ heap.length → heap.length ≤ fuel + 1 →
      ∃ f l r, buildLoop fuel heap = [Node.internal f l r] := by
  intro fuel
  induction fuel with
  | zero => intro heap h1 h2; omega
  | succ n ih =>
    intro heap h1 h2
    simp only [buildLoop]
    rw [if_pos (by omega)]
    have hne : heap ≠ [] := by
      intro hnil; rw [hnil] at h1; simp at h1
    obtain ⟨a, h1x, hpop1, hms1, hlen1⟩ := heappop_ms heap hne
    have hne1 : h1x ≠ [] := by
      intro hnil; rw [hnil] at hlen1; simp at hlen1; omega
    obtain ⟨b, h2x, hpop2, hms2, hlen2⟩ := heappop_ms h1x hne1
    simp only [hpop1, hpop2]
    by_cases hsz : heap.length = 2
    · have hx2 : h2x = [] := by
        have : h2x.length = 0 := by omega
        exact List.length_eq_zero.mp this
      subst hx2
      rw [heappush_nil, buildLoop_le_one n _ (by simp)]
      exact ⟨_, a, b, rfl⟩
    · apply ih
      · rw [heappush_length]; omega
      · rw [heappush_length]; omega

/-! Facts about the frequency map. -/

theorem bump_snd_sum : ∀ (m : List (Nat × Nat)) (c : Nat),
    ((bump m c).map Prod.snd).sum = (m.map Prod.snd).sum + 1 := by
  intro m c
  induction m with
  | nil => rfl
  | cons kv rest ih =>
    obtain ⟨k, v⟩ := kv
    simp only [bump]
    by_cases hk : k = c
    · rw [if_pos hk]; simp only [List.map_cons, List.sum_cons]; omega
    · rw [if_neg hk]; simp only [List.map_cons, List.sum_cons, ih]; omega

theorem foldl_bump_sum : ∀ (b : List Nat) (m : List (Nat × Nat)),
    ((b.foldl bump m).map Prod.snd).sum = (m.map Prod.snd).sum + b.length := by
  intro b
  induction b with
  | nil => intro m; rfl
  | cons ch rest ih =>
    intro m
    simp only [List.foldl_cons, List.length_cons]
    rw [ih (bump m ch), bump_snd_sum]
    omega

theorem freqMap_sum (b : List Nat) : ((freqMap b).map Prod.snd).sum = b.length := by
  have := foldl_bump_sum b []
  simpa [freqMap] using this

theorem bump_keys : ∀ (m : List (Nat × Nat)) (c : Nat),
    (bump m c).map Prod.fst =
      if c ∈ m.map Prod.fst then m.map Prod.fst else m.map Prod.fst ++ [c] := by
  intro m c
  induction m with
  | nil => simp [bump]
  | cons kv rest ih =>
    obtain ⟨k, v⟩ := kv
    simp only [bump]
    by_cases hk : k = c
    · rw [if_pos hk]
      have : c ∈ ((k, v) :: rest).map Prod.fst := by simp [hk.symm]
      rw [if_pos this]
      simp
    · rw [if_neg hk]
      by_cases hc : c ∈ rest.map Prod.fst
      · have : c ∈ ((k, v) :: rest).map Prod.fst := by simp [hc]
        rw [if_pos this]
        simp only [List.map_cons]
        rw [ih, if_pos hc]
      · have : ¬ c ∈ ((k, v) :: rest).map Prod.fst := by
          simp only [List.map_cons, List.mem_cons]
          push_neg
          exact ⟨fun h => hk h.symm, hc⟩
        rw [if_neg this]
        simp only [List.map_cons]
        rw [ih, if_neg hc]
        rfl

theorem bump_keys_sub {m : List (Nat × Nat)} {c x : Nat} (h : x ∈ m.map Prod.fst) :
    x ∈ (bump m c).map Prod.fst := by
  rw [bump_keys]
  split
  · exact h
  · exact List.mem_append_left _ h

theorem bump_keys_self (m : List (Nat × Nat)) (c : Nat) : c ∈ (bump m c).map Prod.fst := by
  rw [bump_keys]
  split
  · assumption
  · exact List.mem_append_right _ (by simp)

theorem bump_keys_nodup {m : List (Nat × Nat)} (c : Nat) (h : (m.map Prod.fst).Nodup) :
    ((bump m c).map Prod.fst).Nodup := by
  rw [bump_keys]
  split
  · exact h
  · rename_i hnm
    rw [List.nodup_append]
    refine ⟨h, List.nodup_singleton c, ?_⟩
    intro x hx hxc
    rw [List.mem_singleton] at hxc
    exact hnm (hxc ▸ hx)

theorem foldl_bump_keys_nodup : ∀ (b : List Nat) (m : List (Nat × Nat)),
    (m.map Prod.fst).Nodup → ((b.foldl bump m).map Prod.fst).Nodup := by
  intro b
  induction b with
  | nil => intro m h; exact h
  | cons ch rest ih => intro m h; exact ih (bump m ch) (bump_keys_nodup ch h)

theorem freqMap_keys_nodup (b : List Nat) : ((freqMap b).map Prod.fst).Nodup :=
  foldl_bump_keys_nodup b [] (by simp)

theorem foldl_bump_keys_mem : ∀ (b : List Nat) (m : List (Nat × Nat)) (c : Nat),
    c ∈ b ∨ c ∈ m.map Prod.fst → c ∈ (b.foldl bump m).map Prod.fst := by
  intro b
  induction b with
  | nil =>
    intro m c h
    rcases h with h | h
    · simp at h
    · exact h
  | cons ch rest ih =>
    intro m c h
    simp only [List.foldl_cons]
    rcases h with h | h
    · rcases List.mem_cons.mp h with h | h
      · exact ih (bump m ch) c (Or.inr (h ▸ bump_keys_self m ch))
      · exact ih (bump m ch) c (Or.inl h)
    · exact ih (bump m ch) c (Or.inr (bump_keys_sub h))

theorem mem_freqMap_keys {b : List Nat} {c : Nat} (h : c ∈ b) :
    c ∈ (freqMap b).map Prod.fst :=
  foldl_bump_keys_mem b [] c (Or.inl h)

theorem freqMap_ne_nil {b : List Nat} (h : b ≠ []) : freqMap b ≠ [] := by
  intro hnil
  have hs := freqMap_sum b
  rw [hnil] at hs
  simp at hs
  exact h (List.length_eq_zero.mp hs.symm)

/-! What TreeBuilder produces. -/

theorem init_freq_sum (l : List (Nat × Nat)) :
    ((l.map fun cf => Node.leaf cf.1 cf.2).map Node.frequency).sum = (l.map Prod.snd).sum := by
  induction l with
  | nil => rfl
  | cons cf rest ih =>
    simp only [List.map_cons, List.sum_cons, Node.frequency]
    rw [ih]

theorem init_leaf_sum (l : List (Nat × Nat)) :
    ((l.map fun cf => Node.leaf cf.1 cf.2).map fun t => (↑(leafList t) : Multiset Nat)).sum
      = (↑(l.map Prod.fst) : Multiset Nat) := by
  induction l with
  | nil => simp
  | cons cf rest ih =>
    simp only [List.map_cons, List.sum_cons, leafList, ih]
    rw [Multiset.coe_singleton, ← Multiset.cons_coe, ← Multiset.singleton_add]

theorem wf_merge (l r : Node) (hl : wf l = true) (hr : wf r = true) :
    wf (Node.internal (l.frequency + r.frequency) l r) = true := by
  simp [wf, hl, hr]

theorem leafList_merge (l r : Node) :
    (↑(leafList (Node.internal (l.frequency + r.frequency) l r)) : Multiset Nat)
      = (↑(leafList l) : Multiset Nat) + (↑(leafList r) : Multiset Nat) := by
  simp only [leafList]
  rw [Multiset.coe_add]

theorem build_tree_total {b : List Nat} (hb : b ≠ []) :
    ∃ t, build_tree b = some t ∧ wf t = true ∧ t.frequency = b.length ∧
      (↑(leafList t) : Multiset Nat) = (↑((freqMap b).map Prod.fst) : Multiset Nat) := by
  have hfm : freqMap b ≠ [] := freqMap_ne_nil hb
  have hlen0 : (heapify ((freqMap b).map fun cf => Node.leaf cf.1 cf.2)).length
      = (freqMap b).length := by rw [heapify_length, List.length_map]
  have hpos : 1 ≤ (heapify ((freqMap b).map fun cf => Node.leaf cf.1 cf.2)).length := by
    rw [hlen0]; exact List.length_pos.mpr hfm
  have hone := buildLoop_length_one
    (heapify ((freqMap b).map fun cf => Node.leaf cf.1 cf.2)).length
    (heapify ((freqMap b).map fun cf => Node.leaf cf.1 cf.2)) hpos (Nat.le_succ _)
  obtain ⟨t, ht⟩ := List.length_eq_one.mp hone
  have htmem : t ∈ buildLoop
      (heapify ((freqMap b).map fun cf => Node.leaf cf.1 cf.2)).length
      (heapify ((freqMap b).map fun cf => Node.leaf cf.1 cf.2)) := by
    rw [ht]; simp
  refine ⟨t, ?_, ?_, ?_, ?_⟩
  · show (buildLoop
      (heapify ((freqMap b).map fun cf => Node.leaf cf.1 cf.2)).length
      (heapify ((freqMap b).map fun cf => Node.leaf cf.1 cf.2))).head? = some t
    rw [ht]; rfl
  · refine buildLoop_all (fun x => wf x = true) wf_merge _ _ ?_ t htmem
    intro x hx
    have hx0 : x ∈ (freqMap b).map fun cf => Node.leaf cf.1 cf.2 :=
      (mem_of_ms (heapify_ms _)).mp hx
    obtain ⟨cf, _, rfl⟩ := List.mem_map.mp hx0
    rfl
  · have hsum := buildLoop_sum Node.frequency (fun l r => rfl)
      (heapify ((freqMap b).map fun cf => Node.leaf cf.1 cf.2)).length
      (heapify ((freqMap b).map fun cf => Node.leaf cf.1 cf.2))
    rw [ht] at hsum
    simp only [List.map_cons, List.map_nil, List.sum_cons, List.sum_nil, Nat.add_zero] at hsum
    rw [hsum, msum_eq Node.frequency (heapify_ms _), init_freq_sum, freqMap_sum]
  · have hsum := buildLoop_sum (fun t => (↑(leafList t) : Multiset Nat)) leafList_merge
      (heapify ((freqMap b).map fun cf => Node.leaf cf.1 cf.2)).length
      (heapify ((freqMap b).map fun cf => Node.leaf cf.1 cf.2))
    rw [ht] at hsum
    simp only [List.map_cons, List.map_nil, List.sum_cons, List.sum_nil, add_zero] at hsum
    rw [hsum, msum_eq (fun t => (↑(leafList t) : Multiset Nat)) (heapify_ms _), init_leaf_sum]

theorem build_tree_internal {b : List Nat} (h2 : 2 ≤ (freqMap b).length) :
    ∃ f l r, build_tree b = some (Node.internal f l r) := by
  have hlen0 : (heapify ((freqMap b).map fun cf => Node.leaf cf.1 cf.2)).length
      = (freqMap b).length := by rw [heapify_length, List.length_map]
  obtain ⟨f, l, r, hres⟩ := buildLoop_internal
    (heapify ((freqMap b).map fun cf => Node.leaf cf.1 cf.2)).length
    (heapify ((freqMap b).map fun cf => Node.leaf cf.1 cf.2))
    (by omega) (Nat.le_succ _)
  refine ⟨f, l, r, ?_⟩
  show (buildLoop
      (heapify ((freqMap b).map fun cf => Node.leaf cf.1 cf.2)).length
      (heapify ((freqMap b).map fun cf => Node.leaf cf.1 cf.2))).head? = some (Node.internal f l r)
  rw [hres]; rfl

/-! The code table and the decoding walk. -/

theorem codes_shift : ∀ (t : Node) (pre : List Bool),
    generate_codes t pre = (generate_codes t []).map fun e => (e.1, pre ++ e.2) := by
  intro t
  induction t with
  | leaf c f => intro pre; simp [generate_codes]
  | internal f l r ihl ihr =>
    intro pre
    simp only [generate_codes, List.map_append]
    rw [ihl (pre ++ [false]), ihr (pre ++ [true]), ihl ([] ++ [false]), ihr ([] ++ [true])]
    simp [List.map_map, Function.comp_def, List.append_assoc]

theorem codes_keys : ∀ (t : Node) (pre : List Bool),
    (generate_codes t pre).map Prod.fst = leafList t := by
  intro t
  induction t with
  | leaf c f => intro pre; rfl
  | internal f l r ihl ihr =>
    intro pre
    simp only [generate_codes, List.map_append, leafList, ihl, ihr]

theorem dlookup_mem : ∀ {codes : List (Nat × List Bool)} {c : Nat} {p : List Bool},
    dlookup codes c = some p → (c, p) ∈ codes := by
  intro codes
  induction codes with
  | nil => intro c p h; simp [dlookup] at h
  | cons kv rest ih =>
    intro c p h
    obtain ⟨k, v⟩ := kv
    simp only [dlookup] at h
    cases hrest : dlookup rest c with
    | some w =>
      rw [hrest] at h
      cases h
      exact List.mem_cons_of_mem _ (ih hrest)
    | none =>
      rw [hrest] at h
      by_cases hk : k = c
      · rw [if_pos hk] at h
        cases h
        subst hk
        exact List.mem_cons_self _ _
      · rw [if_neg hk] at h
        cases h

theorem dlookup_isSome : ∀ {codes : List (Nat × List Bool)} {c : Nat},
    c ∈ codes.map Prod.fst → (dlookup codes c).isSome := by
  intro codes
  induction codes with
  | nil => intro c h; simp at h
  | cons kv rest ih =>
    intro c h
    obtain ⟨k, v⟩ := kv
    simp only [dlookup]
    cases hrest : dlookup rest c with
    | some w => rfl
    | none =>
      simp only [List.map_cons, List.mem_cons] at h
      rcases h with h | h
      · rw [if_pos h.symm]; rfl
      · have := ih h
        rw [hrest] at this
        simp at this

theorem encode_total : ∀ {codes : List (Nat × List Bool)} (data : List Nat),
    (∀ ch ∈ data, (dlookup codes ch).isSome) → ∃ bits, encode codes data = some bits := by
  intro codes data
  induction data with
  | nil => intro h; exact ⟨[], rfl⟩
  | cons ch rest ih =>
    intro h
    obtain ⟨p, hp⟩ := Option.isSome_iff_exists.mp (h ch (List.mem_cons_self ..))
    obtain ⟨bits, hbits⟩ := ih fun x hx => h x (List.mem_cons_of_mem _ hx)
    exact ⟨p ++ bits, by simp only [encode, hp, hbits]⟩

theorem decode_total (f0 : Nat) (l0 r0 : Node) :
    ∀ (bits : List Bool) (f : Nat) (l r : Node),
      (decodeFrom (Node.internal f0 l0 r0) (Node.internal f l r) bits).isSome := by
  intro bits
  induction bits with
  | nil => intro f l r; rfl
  | cons bit rest ih =>
    intro f l r
    simp only [decodeFrom]
    cases hb : (if bit then r else l) with
    | leaf c fc =>
      show (Option.map (fun ds => c :: ds)
        (decodeFrom (Node.internal f0 l0 r0) (Node.internal f0 l0 r0) rest)).isSome = true
      have hsome := ih f0 l0 r0
      cases hd : decodeFrom (Node.internal f0 l0 r0) (Node.internal f0 l0 r0) rest with
      | none => rw [hd] at hsome; simp at hsome
      | some ds => rfl
    | internal f2 l2 r2 => exact ih f2 l2 r2

theorem decode_fail_iff (t : Node) (bits : List Bool) :
    decodeFrom t t bits = none ↔ (∃ c f, t = Node.leaf c f) ∧ bits ≠ [] := by
  cases t with
  | leaf c f =>
    cases bits with
    | nil => simp [decodeFrom]
    | cons bit rest => simp [decodeFrom]
  | internal f l r =>
    constructor
    · intro h
      have := decode_total f l r bits f l r
      rw [h] at this
      simp at this
    · rintro ⟨⟨c, fc, h⟩, _⟩
      cases h

theorem mem_codes_internal {f : Nat} {l r : Node} {c : Nat} {p : List Bool}
    (h : (c, p) ∈ generate_codes (Node.internal f l r) []) :
    (∃ q, p = false :: q ∧ (c, q) ∈ generate_codes l []) ∨
      (∃ q, p = true :: q ∧ (c, q) ∈ generate_codes r []) := by
  simp only [generate_codes, List.nil_append, List.mem_append] at h
  rcases h with h | h
  · left
    rw [codes_shift l [false]] at h
    obtain ⟨e, he, heq⟩ := List.mem_map.mp h
    obtain ⟨c2, q⟩ := e
    cases heq
    exact ⟨q, rfl, he⟩
  · right
    rw [codes_shift r [true]] at h
    obtain ⟨e, he, heq⟩ := List.mem_map.mp h
    obtain ⟨c2, q⟩ := e
    cases heq
    exact ⟨q, rfl, he⟩

theorem decode_consume (root : Node) : ∀ (t : Node) (c : Nat) (p : List Bool),
    (c, p) ∈ generate_codes t [] → (∃ f l r, t = Node.internal f l r) →
    ∀ rest, decodeFrom root t (p ++ rest)
      = (decodeFrom root root rest).map fun ds => c :: ds := by
  intro t
  induction t with
  | leaf c0 f0 =>
    rintro c p hmem ⟨f, l, r, habs⟩
    cases habs
  | internal f l r ihl ihr =>
    intro c p hmem _ rest
    rcases mem_codes_internal hmem with ⟨q, rfl, hq⟩ | ⟨q, rfl, hq⟩
    · cases l with
      | leaf c2 f2 =>
        simp only [generate_codes, List.mem_singleton, Prod.mk.injEq] at hq
        obtain ⟨rfl, rfl⟩ := hq
        rfl
      | internal f2 l2 r2 =>
        show decodeFrom root (Node.internal f2 l2 r2) (q ++ rest) = _
        exact ihl c q hq ⟨f2, l2, r2, rfl⟩ rest
    · cases r with
      | leaf c2 f2 =>
        simp only [generate_codes, List.mem_singleton, Prod.mk.injEq] at hq
        obtain ⟨rfl, rfl⟩ := hq
        rfl
      | internal f2 l2 r2 =>
        show decodeFrom root (Node.internal f2 l2 r2) (q ++ rest) = _
        exact ihr c q hq ⟨f2, l2, r2, rfl⟩ rest

theorem decode_encode {f : Nat} {l r : Node} :
    ∀ (data : List Nat) (bits : List Bool),
      encode (generate_codes (Node.internal f l r) []) data = some bits →
      decodeFrom (Node.internal f l r) (Node.internal f l r) bits = some data := by
  intro data
  induction data with
  | nil =>
    intro bits h
    simp only [encode, Option.some.injEq] at h
    rw [← h]
    rfl
  | cons ch rest ih =>
    intro bits h
    simp only [encode] at h
    cases hdl : dlookup (generate_codes (Node.internal f l r) []) ch with
    | none => rw [hdl] at h; cases h
    | some p =>
      rw [hdl] at h
      cases henc : encode (generate_codes (Node.internal f l r) []) rest with
      | none => rw [henc] at h; cases h
      | some bits2 =>
        rw [henc] at h
        cases h
        have hmem := dlookup_mem hdl
        rw [decode_consume (Node.internal f l r) (Node.internal f l r) ch p hmem
          ⟨f, l, r, rfl⟩ bits2]
        rw [ih bits2 henc]
        rfl

theorem codes_pf : ∀ t : Node,
    List.Pairwise (fun e1 e2 : Nat × List Bool =>
      ¬ e1.2 <+: e2.2 ∧ ¬ e2.2 <+: e1.2) (generate_codes t []) := by
  intro t
  induction t with
  | leaf c f => simp [generate_codes]
  | internal f l r ihl ihr =>
    show List.Pairwise _ (generate_codes l ([] ++ [false]) ++ generate_codes r ([] ++ [true]))
    rw [List.pairwise_append]
    refine ⟨?_, ?_, ?_⟩
    · rw [codes_shift l ([] ++ [false]), List.pairwise_map]
      refine ihl.imp ?_
      rintro ⟨c1, q1⟩ ⟨c2, q2⟩ ⟨h1, h2⟩
      constructor
      · intro hp
        exact h1 (List.cons_prefix_cons.mp hp).2
      · intro hp
        exact h2 (List.cons_prefix_cons.mp hp).2
    · rw [codes_shift r ([] ++ [true]), List.pairwise_map]
      refine ihr.imp ?_
      rintro ⟨c1, q1⟩ ⟨c2, q2⟩ ⟨h1, h2⟩
      constructor
      · intro hp
        exact h1 (List.cons_prefix_cons.mp hp).2
      · intro hp
        exact h2 (List.cons_prefix_cons.mp hp).2
    · intro e1 he1 e2 he2
      rw [codes_shift l ([] ++ [false])] at he1
      rw [codes_shift r ([] ++ [true])] at he2
      obtain ⟨⟨c1, q1⟩, _, rfl⟩ := List.mem_map.mp he1
      obtain ⟨⟨c2, q2⟩, _, rfl⟩ := List.mem_map.mp he2
      constructor
      · intro hp
        exact Bool.noConfusion (List.cons_prefix_cons.mp hp).1
      · intro hp
        exact Bool.noConfusion (List.cons_prefix_cons.mp hp).1

/-! Packing and unpacking. -/

theorem byte_rt : ∀ a b c d e f g h : Bool,
    natToBits 8 (bitsToNat [a, b, c, d, e, f, g, h]) = [a, b, c, d, e, f, g, h] := by
  decide

theorem unpack_pack : ∀ (n : Nat) (s : List Bool), s.length ≤ n → s.length % 8 = 0 →
    ((packBits s).map (natToBits 8)).flatten = s := by
  intro n
  induction n with
  | zero =>
    intro s hlen hmod
    have : s = [] := List.eq_nil_of_length_eq_zero (by omega)
    subst this
    rfl
  | succ n ih =>
    intro s hlen hmod
    match s with
    | [] => rfl
    | [b0] => simp at hmod
    | [b0, b1] => simp at hmod
    | [b0, b1, b2] => simp at hmod
    | [b0, b1, b2, b3] => simp at hmod
    | [b0, b1, b2, b3, b4] => simp at hmod
    | [b0, b1, b2, b3, b4, b5] => simp at hmod
    | [b0, b1, b2, b3, b4, b5, b6] => simp at hmod
    | b0 :: b1 :: b2 :: b3 :: b4 :: b5 :: b6 :: b7 :: rest =>
      show ((bitsToNat [b0, b1, b2, b3, b4, b5, b6, b7] :: packBits rest).map
        (natToBits 8)).flatten = _
      simp only [List.map_cons, List.flatten]
      rw [byte_rt]
      have hrest : ((packBits rest).map (natToBits 8)).flatten = rest := by
        refine ih rest ?_ ?_
        · simp only [List.length_cons] at hlen; omega
        · simp only [List.length_cons] at hmod; omega
      rw [hrest]
      rfl

/-! End-to-end round trip. -/

theorem to_binary_string_eq (bits : List Bool) :
    to_binary_string bits
      = (packBits (bits ++ List.replicate (8 - bits.length % 8) false), 8 - bits.length % 8) :=
  rfl

theorem padded_mod (bits : List Bool) :
    (bits ++ List.replicate (8 - bits.length % 8) false).length % 8 = 0 := by
  rw [List.length_append, List.length_replicate]
  omega

theorem strip_padded (bits : List Bool) :
    pyStripLast (bits ++ List.replicate (8 - bits.length % 8) false) (8 - bits.length % 8)
      = bits := by
  unfold pyStripLast
  rw [if_neg (by omega)]
  rw [List.length_append, List.length_replicate]
  have : bits.length + (8 - bits.length % 8) - (8 - bits.length % 8) = bits.length := by omega
  rw [this]
  exact List.take_left ..

theorem hroot_some {b : List Nat} (hb : b ≠ []) {t : Node} (hbt : build_tree b = some t) :
    hroot b = some t := by
  unfold hroot
  rw [if_neg hb, hbt]

theorem encode_some {b : List Nat} {t : Node} (hb : b ≠ []) (hbt : build_tree b = some t) :
    ∃ bits, encode (generate_codes t []) b = some bits := by
  obtain ⟨t2, hbt2, _, _, hlm⟩ := build_tree_total hb
  rw [hbt] at hbt2
  cases hbt2
  refine encode_total b ?_
  intro ch hch
  refine dlookup_isSome ?_
  rw [codes_keys t []]
  exact (mem_of_ms hlm).mpr (mem_freqMap_keys hch)

theorem roundtrip_ge2 (b : List Nat) (h2 : 2 ≤ (freqMap b).length) : roundtrip b = some b := by
  have hb : b ≠ [] := by
    intro h
    subst h
    simp [freqMap] at h2
  obtain ⟨f, l, r, hbt⟩ := build_tree_internal h2
  have hr : hroot b = some (Node.internal f l r) := hroot_some hb hbt
  have hcod : hcodes b = generate_codes (Node.internal f l r) [] := by
    unfold hcodes
    rw [hr]
  obtain ⟨bits, hbits⟩ := encode_some hb hbt
  have hc : compressArtifact b
      = some ((to_binary_string bits).2 :: (to_binary_string bits).1) := by
    unfold compressArtifact
    rw [hcod, hbits]
  unfold roundtrip
  rw [hc, hr]
  unfold decompressArtifact
  rw [to_binary_string_eq]
  simp only
  rw [unpack_pack (bits ++ List.replicate (8 - bits.length % 8) false).length _ le_rfl
    (padded_mod bits)]
  rw [strip_padded]
  unfold decode_huffman
  exact decode_encode b bits hbits

/-! Claim theorems. -/

/-- C1 (counterexample): the round-trip claim fails on the code as stated
for arbitrary non-empty buffers: the single-byte buffer `[97]` gets the
empty code, compresses to one padding byte, and decompresses to the empty
buffer, not to `[97]`. -/
theorem C1_counterexample : roundtrip [97] = some [] ∧ roundtrip [97] ≠ some [97] := by
  decide

/-- C1 (amended): for every byte buffer with at least two distinct byte
values, building the Huffman tree, encoding with the derived table,
packing with the padding count, then unpacking, stripping the padding and
decoding bit-by-bit against the same tree yields exactly the original
buffer. -/
theorem C1_roundtrip (b : List Nat) (h : 2 ≤ (freqMap b).length) : roundtrip b = some b :=
  roundtrip_ge2 b h

/-- C1 witness: the round-trip theorem applied to the concrete buffer
`[65, 65, 66]`. -/
theorem C1_roundtrip_witness :
    2 ≤ (freqMap [65, 65, 66]).length ∧ roundtrip [65, 65, 66] = some [65, 65, 66] :=
  ⟨by decide, C1_roundtrip [65, 65, 66] (by decide)⟩

/-- C2 (code bug): on a buffer holding a single distinct byte the code
assigns the empty code, not the one-bit code `"0"` the spec demands, and
the buffer does not decompress correctly: `[97, 97, 97]` comes back as
the empty buffer. -/
theorem C2_single_symbol_bug :
    hcodes [97, 97, 97] = [(97, [])] ∧ roundtrip [97, 97, 97] = some [] ∧
      roundtrip [97, 97, 97] ≠ some [97, 97, 97] := by
  decide

/-- C3: for every tree produced by TreeBuilder from a non-empty buffer,
the code table derived by the traversal rule has pairwise-distinct keys
and no code in it is a prefix of another code in the table. -/
theorem C3_prefix_free (b : List Nat) (hb : b ≠ []) (t : Node)
    (hbt : build_tree b = some t) :
    ((generate_codes t []).map Prod.fst).Nodup ∧
      List.Pairwise (fun e1 e2 : Nat × List Bool => ¬ e1.2 <+: e2.2 ∧ ¬ e2.2 <+: e1.2)
        (generate_codes t []) := by
  constructor
  · obtain ⟨t2, hbt2, _, _, hlm⟩ := build_tree_total hb
    rw [hbt] at hbt2
    injection hbt2 with ht2
    subst ht2
    rw [codes_keys]
    have hperm : List.Perm (leafList t) ((freqMap b).map Prod.fst) :=
      Multiset.coe_eq_coe.mp hlm
    exact hperm.nodup_iff.mpr (freqMap_keys_nodup b)
  · exact codes_pf t

/-- C3 witness: the prefix-freeness theorem applied to the spec's
concrete scenario `"AAABBC"` and the tree the code builds for it. -/
theorem C3_prefix_free_witness :
    build_tree [65, 65, 65, 66, 66, 67] = some (Node.internal 6 (Node.leaf 65 3)
      (Node.internal 3 (Node.leaf 67 1) (Node.leaf 66 2))) ∧
    (((generate_codes (Node.internal 6 (Node.leaf 65 3)
        (Node.internal 3 (Node.leaf 67 1) (Node.leaf 66 2))) []).map Prod.fst).Nodup ∧
      List.Pairwise (fun e1 e2 : Nat × List Bool => ¬ e1.2 <+: e2.2 ∧ ¬ e2.2 <+: e1.2)
        (generate_codes (Node.internal 6 (Node.leaf 65 3)
          (Node.internal 3 (Node.leaf 67 1) (Node.leaf 66 2))) [])) :=
  ⟨by decide, C3_prefix_free [65, 65, 65, 66, 66, 67] (by decide) _ (by decide)⟩

/-- C4 (counterexample): frequency ties are not broken by insertion order
into the candidate set.  On `[97, 98]` both bytes have frequency one; the
spec's stable insertion-order tie-break assigns `97 ↦ "0"`, `98 ↦ "1"`,
but the code (via `heapq`'s array order after `heapify`) assigns
`98 ↦ "0"`, `97 ↦ "1"`. -/
theorem C4_counterexample :
    spec_codes [97, 98] = [(97, [false]), (98, [true])] ∧
      hcodes [97, 98] = [(98, [false]), (97, [true])] ∧
      spec_codes [97, 98] ≠ hcodes [97, 98] := by
  decide

/-- C4 (amended): the determinism half holds: the code table is a pure
function of the frequency mapping (including tie patterns), so two
buffers with identical frequency maps always get identical code tables;
but ties are broken by the deterministic `heapq` array order, not by
insertion order. -/
theorem C4_deterministic (b1 b2 : List Nat) (h : freqMap b1 = freqMap b2) :
    hcodes b1 = hcodes b2 := by
  by_cases hb1 : b1 = []
  · have hb2 : b2 = [] := by
      by_contra hne
      have := freqMap_ne_nil hne
      rw [← h, hb1] at this
      exact this rfl
    subst hb1
    subst hb2
    rfl
  · have hb2 : b2 ≠ [] := by
      intro hne
      have := freqMap_ne_nil hb1
      rw [h, hne] at this
      exact this rfl
    unfold hcodes hroot build_tree
    rw [if_neg hb1, if_neg hb2, h]

/-- C4 witness: two different buffers with the same frequency map get the
same code table. -/
theorem C4_deterministic_witness :
    freqMap [5, 7, 5, 7] = freqMap [5, 5, 7, 7] ∧
      hcodes [5, 7, 5, 7] = hcodes [5, 5, 7, 7] :=
  ⟨by decide, C4_deterministic [5, 7, 5, 7] [5, 5, 7, 7] (by decide)⟩

/-- C5: the bit-packer appends exactly `p = 8 - (L mod 8)` zero bits, so
`p` ranges over 1..8 with `p = 8` exactly when `L` is a multiple of 8,
the padded length is a multiple of 8, and the returned bytes unpack to
the padded bitstream. -/
theorem C5_padding (s : List Bool) :
    (to_binary_string s).2 = 8 - s.length % 8 ∧
      1 ≤ (to_binary_string s).2 ∧ (to_binary_string s).2 ≤ 8 ∧
      (s.length % 8 = 0 → (to_binary_string s).2 = 8) ∧
      (s.length + (to_binary_string s).2) % 8 = 0 ∧
      ((to_binary_string s).1.map (natToBits 8)).flatten
        = s ++ List.replicate (to_binary_string s).2 false := by
  refine ⟨rfl, by show 1 ≤ 8 - s.length % 8; omega, by show 8 - s.length % 8 ≤ 8; omega,
    ?_, ?_, ?_⟩
  · intro h0
    show 8 - s.length % 8 = 8
    omega
  · show (s.length + (8 - s.length % 8)) % 8 = 0
    omega
  · show ((packBits (s ++ List.replicate (8 - s.length % 8) false)).map (natToBits 8)).flatten
      = s ++ List.replicate (8 - s.length % 8) false
    exact unpack_pack _ _ le_rfl (padded_mod s)

/-- C5 witness: the padding theorem applied to a 9-bit stream (padding 7)
exercising every conjunct. -/
theorem C5_padding_witness :
    (to_binary_string (List.replicate 9 true)).2 = 8 - (List.replicate 9 true).length % 8 ∧
      1 ≤ (to_binary_string (List.replicate 9 true)).2 ∧
      (to_binary_string (List.replicate 9 true)).2 ≤ 8 ∧
      ((List.replicate 9 true).length % 8 = 0 →
        (to_binary_string (List.replicate 9 true)).2 = 8) ∧
      ((List.replicate 9 true).length + (to_binary_string (List.replicate 9 true)).2) % 8 = 0 ∧
      ((to_binary_string (List.replicate 9 true)).1.map (natToBits 8)).flatten
        = List.replicate 9 true ++ List.replicate (to_binary_string (List.replicate 9 true)).2
          false :=
  C5_padding (List.replicate 9 true)

/-- C6 (counterexample): a bit sequence that runs out mid-code does not
make the decoder fail.  On the tree built from `"AAABBC"` the single bit
`"1"` stops inside the right subtree, yet the decoder returns the empty
byte sequence instead of an error. -/
theorem C6_counterexample :
    build_tree [65, 65, 65, 66, 66, 67] = some (Node.internal 6 (Node.leaf 65 3)
      (Node.internal 3 (Node.leaf 67 1) (Node.leaf 66 2))) ∧
    decodeFrom
      (Node.internal 6 (Node.leaf 65 3) (Node.internal 3 (Node.leaf 67 1) (Node.leaf 66 2)))
      (Node.internal 6 (Node.leaf 65 3) (Node.internal 3 (Node.leaf 67 1) (Node.leaf 66 2)))
      [true] = some [] := by
  decide

/-- C6 (amended): the decoder fails exactly when the tree root is a
single leaf and the bit sequence is non-empty (the walk steps from that
leaf to a `None` child, an `AttributeError` rather than a dedicated
`CorruptStream` error); running out of bits mid-code is not detected: the
decoder silently returns the bytes decoded so far. -/
theorem C6_decoder_failure (t : Node) (bits : List Bool) :
    decodeFrom t t bits = none ↔ (∃ c f, t = Node.leaf c f) ∧ bits ≠ [] :=
  decode_fail_iff t bits

/-- C6 witness: the failure characterization evaluated on a leaf root
with one bit (fails) — both directions of the iff at a concrete input. -/
theorem C6_decoder_failure_witness :
    decodeFrom (Node.leaf 9 4) (Node.leaf 9 4) [true] = none :=
  (C6_decoder_failure (Node.leaf 9 4) [true]).mpr ⟨⟨9, 4, rfl⟩, by decide⟩

/-- C7 (counterexample): the empty buffer does not produce an empty
artifact: compression runs the normal path, pads the empty bitstream
with 8 zero bits, and emits the two-byte artifact `[8, 0]` (padding
count 8 followed by one zero byte). -/
theorem C7_counterexample :
    compressArtifact [] = some [8, 0] ∧ compressArtifact [] ≠ some [] := by
  decide

/-- C7 (amended): the empty buffer builds no tree (`root` is `None`), its
artifact is the two-byte `[8, 0]`, and that artifact decompresses back to
the empty buffer with no exception escaping. -/
theorem C7_empty_roundtrip :
    hroot [] = none ∧ compressArtifact [] = some [8, 0] ∧ roundtrip [] = some [] := by
  decide

/-- C8: for every non-empty buffer, every byte of the buffer has an entry
in the code table built from that buffer, so the encoder's per-byte
lookup never fails and the whole encode succeeds (the `KeyError` /
`MissingCode` branch is unreachable). -/
theorem C8_no_missing_code (b : List Nat) (hb : b ≠ []) :
    (∀ ch ∈ b, (dlookup (hcodes b) ch).isSome) ∧ ∃ bits, encode (hcodes b) b = some bits := by
  obtain ⟨t, hbt, _, _, hlm⟩ := build_tree_total hb
  have hr : hroot b = some t := hroot_some hb hbt
  have hcod : hcodes b = generate_codes t [] := by
    unfold hcodes
    rw [hr]
  rw [hcod]
  constructor
  · intro ch hch
    refine dlookup_isSome ?_
    rw [codes_keys t []]
    exact (mem_of_ms hlm).mpr (mem_freqMap_keys hch)
  · exact encode_some hb hbt

/-- C8 witness: the no-missing-code theorem applied to the concrete
buffer `[3, 3]` (whose single symbol receives the empty code, yet the
lookup still succeeds). -/
theorem C8_no_missing_code_witness :
    (∀ ch ∈ [3, 3], (dlookup (hcodes [3, 3]) ch).isSome) ∧
      ∃ bits, encode (hcodes [3, 3]) [3, 3] = some bits :=
  C8_no_missing_code [3, 3] (by decide)

/-- C9: the tree built from a non-empty buffer exists, every internal
node carries both children and the sum of their frequencies (the `wf`
invariant), and the root frequency equals the buffer length. -/
theorem C9_internal_invariant (b : List Nat) (hb : b ≠ []) :
    ∃ t, build_tree b = some t ∧ wf t = true ∧ t.frequency = b.length := by
  obtain ⟨t, h1, h2, h3, _⟩ := build_tree_total hb
  exact ⟨t, h1, h2, h3⟩

/-- C9 witness: the invariant theorem applied to the concrete buffer
`[1, 1, 2]`. -/
theorem C9_internal_invariant_witness :
    ∃ t, build_tree [1, 1, 2] = some t ∧ wf t = true ∧ t.frequency = [1, 1, 2].length :=
  C9_internal_invariant [1, 1, 2] (by decide)

/-- C10: for a tree built from a buffer with at least two distinct byte
values, the decoding walk is total: on every finite bit string it
terminates with some (possibly truncated) byte sequence and never steps
from a leaf into a missing child. -/
theorem C10_decode_total (b : List Nat) (h2 : 2 ≤ (freqMap b).length) (t : Node)
    (hbt : build_tree b = some t) (bits : List Bool) :
    (decodeFrom t t bits).isSome := by
  obtain ⟨f, l, r, hbt2⟩ := build_tree_internal h2
  rw [hbt] at hbt2
  injection hbt2 with ht
  subst ht
  exact decode_total f l r bits f l r

/-- C10 witness: decoder totality on the tree built from `[0, 1]` with an
arbitrary 3-bit input that ends mid-nothing. -/
theorem C10_decode_total_witness :
    (decodeFrom (Node.internal 2 (Node.leaf 1 1) (Node.leaf 0 1))
      (Node.internal 2 (Node.leaf 1 1) (Node.leaf 0 1)) [true, false, true]).isSome :=
  C10_decode_total [0, 1] (by decide) _ (by decide) [true, false, true]
